import Mathlib

/-!
Verification of the signal-aggregation and playback-orchestration core of
pyCandle2017 against its specification.

The definitions below are shallow embeddings of the Python source:

* `deque_append` — `collections.deque(maxlen=buffer_size)` append semantics
  (`inputs/agd/input.py`, `self._readings`).
* `pairs_from`, `agd_step`, `aggregated_derivative` — the static method
  `_pairs_from` and the loop body of `_aggregated_derivative`
  (`inputs/agd/input.py`, lines 110-143).
* `selectGo`, `select` — the threshold scan of `_handle_new_reading`
  (`inputs/agd/input.py`, lines 100-103).
* `handle_new_reading` — the full `_handle_new_reading` state transition,
  returning the new state, the always-emitted `agd_output` payload and the
  optional `change_play_level` event.
* `pyListSet`, `set_threshold` — `_set_threshold` with Python list item
  assignment semantics, negative indices included
  (`inputs/agd/input.py`, lines 74-82).
* `levelSteps`, `applyStep`, `levelRun`, `player_ended` — the
  `PlayerManager.level` coroutine and `_player_ended` callback
  (`player/player_manager.py`, lines 93-117); the coroutine is embedded as
  the ordered list of primitive steps it performs (a failed spawn truncates
  the list, as the raised exception aborts the generator before the
  assignments run), and the resulting object state is the fold of the
  assignment steps.
-/

namespace PyCandle

/-- Appending to a `collections.deque` with `maxlen`: the new element goes to
the right and the oldest elements are discarded from the left once the length
exceeds `maxlen`. -/
def deque_append (maxlen : Nat) (buf : List Int) (x : Int) : List Int :=
  let b := buf ++ [x]
  if maxlen < b.length then b.drop (b.length - maxlen) else b

/-- `_pairs_from`: consecutive pairs (i0, i1), (i1, i2), ... of the list. -/
def pairs_from : List Int → List (Int × Int)
  | [] => []
  | [_] => []
  | a :: b :: rest => (a, b) :: pairs_from (b :: rest)

/-- One iteration of the loop in `_aggregated_derivative`: add a non-negative
derivative to the running result, reset the result to 0 on a negative one. -/
def agd_step (result : Int) (p : Int × Int) : Int :=
  let derivative := p.2 - p.1
  if derivative ≥ 0 then result + derivative else 0

/-- `_aggregated_derivative`: fold `agd_step` over the consecutive pairs of
the readings buffer, starting from 0. -/
def aggregated_derivative (readings : List Int) : Int :=
  (pairs_from readings).foldl agd_step 0

/-- The fold the specification describes for the aggregated derivative: over
consecutive pairs of the buffer in arrival order, start at 0, add each delta
that is ≥ 0 and reset the accumulator to 0 on a delta < 0; with fewer than
two readings the pair list is empty and the result is 0. -/
def agd_spec_fold (readings : List Int) : Int :=
  (readings.zip readings.tail).foldl
    (fun acc p => if 0 ≤ p.2 - p.1 then acc + (p.2 - p.1) else 0) 0

theorem pairs_from_eq_zip (l : List Int) : pairs_from l = l.zip l.tail := by
  induction l with
  | nil => rfl
  | cons a l ih =>
    cases l with
    | nil => rfl
    | cons b rest => simpa [pairs_from] using ih

theorem agd_step_eq_spec :
    agd_step = fun acc p => if 0 ≤ p.2 - p.1 then acc + (p.2 - p.1) else 0 := by
  funext acc p
  simp [agd_step, ge_iff_le]

/-- Claim C1: for every buffer state obtained by appending a reading, the
aggregated derivative equals the specification's fold over consecutive pairs
of the buffer in arrival order (start at 0, add non-negative deltas, reset to
0 on a negative delta, 0 with fewer than two readings); in particular the
buffer [1, 3, 2, 5] yields 3. -/
theorem agd_equals_spec_fold :
    (∀ (m : Nat) (buf : List Int) (r : Int),
        aggregated_derivative (deque_append m buf r) =
          agd_spec_fold (deque_append m buf r))
    ∧ aggregated_derivative [1, 3, 2, 5] = 3 := by
  constructor
  · intro m buf r
    simp [aggregated_derivative, agd_spec_fold, pairs_from_eq_zip, agd_step_eq_spec]
  · decide

theorem foldl_agd_of_chain :
    ∀ (l : List Int) (a acc : Int), List.Chain' (· ≤ ·) (a :: l) →
      (pairs_from (a :: l)).foldl agd_step acc = acc + (l.getLastD a - a) := by
  intro l
  induction l with
  | nil => intro a acc _; simp [pairs_from]
  | cons b l ih =>
    intro a acc hchain
    rcases List.chain'_cons.mp hchain with ⟨hab, hbl⟩
    have hstep : agd_step acc (a, b) = acc + (b - a) := by
      simp [agd_step, sub_nonneg.mpr hab]
    calc (pairs_from (a :: b :: l)).foldl agd_step acc
        = (pairs_from (b :: l)).foldl agd_step (agd_step acc (a, b)) := by
          simp [pairs_from]
      _ = (acc + (b - a)) + (l.getLastD b - b) := by rw [hstep, ih b _ hbl]
      _ = acc + ((b :: l).getLastD a - a) := by
          rw [List.getLastD_cons]
          ring

/-- Claim C2: for every nonempty buffer whose readings are monotonically
non-decreasing (every consecutive delta ≥ 0), the aggregated derivative
equals the last reading minus the first reading of the buffer. -/
theorem agd_monotone_total_increase (buf : List Int) (h : buf ≠ [])
    (hm : List.Chain' (· ≤ ·) buf) :
    aggregated_derivative buf = buf.getLastD 0 - buf.headD 0 := by
  cases buf with
  | nil => exact absurd rfl h
  | cons a l =>
    have := foldl_agd_of_chain l a 0 hm
    simp only [aggregated_derivative]
    rw [this, List.getLastD_cons]
    simp

/-- Witness for claim C2 at the concrete monotone buffer [1, 2, 5]. -/
theorem agd_monotone_total_increase_witness :
    aggregated_derivative [1, 2, 5] = 4 := by
  have h := agd_monotone_total_increase [1, 2, 5] (by decide)
    (by simp [List.chain'_cons])
  simpa using h

/-- The threshold scan of `_handle_new_reading`: `play_level` starts at 0 and
the loop `for level, threshold in enumerate(self._thresholds, start=1)`
overwrites it with `level` whenever `agd >= threshold`.  `lvl` is the level of
the head of the remaining list and `acc` the current `play_level`. -/
def selectGo (agd : Int) : List Int → Nat → Nat → Nat
  | [], _, acc => acc
  | t :: ts, lvl, acc => selectGo agd ts (lvl + 1) (if agd ≥ t then lvl else acc)

/-- The level selector: the scan above over the whole threshold table,
starting at level 1 with `play_level = 0`. -/
def select (agd : Int) (thresholds : List Int) : Nat :=
  selectGo agd thresholds 1 0

/-- 0-based index of the last element `t` of the list with `v ≥ t`, if any. -/
def lastQual (v : Int) : List Int → Option Nat
  | [] => none
  | t :: ts =>
    match lastQual v ts with
    | some j => some (j + 1)
    | none => if v ≥ t then some 0 else none

theorem selectGo_eq_lastQual (v : Int) :
    ∀ (ts : List Int) (lvl acc : Nat),
      selectGo v ts lvl acc =
        match lastQual v ts with
        | none => acc
        | some j => lvl + j := by
  intro ts
  induction ts with
  | nil => intro lvl acc; rfl
  | cons t ts ih =>
    intro lvl acc
    rw [selectGo, ih]
    rcases hq : lastQual v ts with _ | j
    · by_cases hvt : v ≥ t <;> simp [lastQual, hq, hvt]
    · simp only [lastQual, hq]
      show lvl + 1 + j = lvl + (j + 1)
      omega

theorem lastQual_eq_none (v : Int) :
    ∀ ts : List Int, lastQual v ts = none ↔ ∀ t ∈ ts, v < t := by
  intro ts
  induction ts with
  | nil => simp [lastQual]
  | cons t ts ih =>
    rcases hq : lastQual v ts with _ | j
    · by_cases hvt : v ≥ t
      · simp only [lastQual, hq, hvt, if_pos]
        constructor
        · intro h; exact absurd h (by simp)
        · intro h
          exact absurd (h t (List.mem_cons_self t ts)) (not_lt.mpr hvt)
      · simp only [lastQual, hq, hvt, if_neg]
        constructor
        · intro _ s hs
          rcases List.mem_cons.mp hs with rfl | hs
          · exact lt_of_not_ge hvt
          · exact (ih.mp hq) s hs
        · intro _; rfl
    · simp only [lastQual, hq]
      constructor
      · intro h; exact absurd h (by simp)
      · intro h
        have : lastQual v ts = none := ih.mpr (fun s hs => h s (List.mem_cons_of_mem t hs))
        rw [this] at hq
        exact absurd hq (by simp)

theorem lastQual_eq_some (v : Int) :
    ∀ (ts : List Int) (j : Nat), lastQual v ts = some j →
      j < ts.length ∧ ts.getD j 0 ≤ v ∧
        ∀ k, j < k → k < ts.length → v < ts.getD k 0 := by
  intro ts
  induction ts with
  | nil => intro j h; exact absurd h (by simp [lastQual])
  | cons t ts ih =>
    intro j h
    rcases hq : lastQual v ts with _ | j'
    · rw [lastQual, hq] at h
      by_cases hvt : v ≥ t
      · rw [if_pos hvt] at h
        obtain rfl : (0 : Nat) = j := Option.some.inj h
        refine ⟨by simp, by simpa using hvt, ?_⟩
        intro k hk hklen
        obtain ⟨k', rfl⟩ := Nat.exists_eq_add_of_lt hk
        have hk'len : k' < ts.length := by
          simp only [List.length_cons] at hklen
          omega
        have hmem : ts.getD k' 0 ∈ ts := by
          rw [List.getD_eq_getElem ts 0 hk'len]
          exact List.getElem_mem hk'len
        have hlt := (lastQual_eq_none v ts).mp hq _ hmem
        simpa [List.getD_cons_succ] using hlt
      · rw [if_neg hvt] at h
        exact absurd h (by simp)
    · rw [lastQual, hq] at h
      obtain rfl : j' + 1 = j := Option.some.inj h
      obtain ⟨hlen, hqual, hmax⟩ := ih j' hq
      refine ⟨by simpa using hlen, by simpa using hqual, ?_⟩
      intro k hk hklen
      obtain ⟨k', rfl⟩ := Nat.exists_eq_add_of_lt hk
      have hk'len : j' + 1 + k' < ts.length := by
        simp only [List.length_cons] at hklen
        omega
      have hmax' := hmax (j' + 1 + k') (by omega) hk'len
      simpa [List.getD_cons_succ] using hmax'

theorem select_eq_lastQual (v : Int) (ts : List Int) :
    select v ts =
      match lastQual v ts with
      | none => 0
      | some j => j + 1 := by
  rw [select, selectGo_eq_lastQual]
  rcases lastQual v ts with _ | j
  · rfl
  · simp [Nat.add_comm]

/-- Claim C3: the selected play level is 0 when the aggregated value is below
every threshold, and otherwise it is the largest (1-based) qualifying index of
the in-order scan: the selected level is between 1 and N, its own threshold is
met, and it is at least `i + 1` for every 0-based index `i` whose threshold is
met; in particular thresholds [5, 10, 20] and value 12 select level 2. -/
theorem select_highest_qualifying (v : Int) (ts : List Int) :
    ((∀ t ∈ ts, v < t) → select v ts = 0)
    ∧ (∀ i, i < ts.length → ts.getD i 0 ≤ v →
        1 ≤ select v ts ∧ select v ts ≤ ts.length ∧
        ts.getD (select v ts - 1) 0 ≤ v ∧ i + 1 ≤ select v ts)
    ∧ select 12 [5, 10, 20] = 2 := by
  refine ⟨?_, ?_, by decide⟩
  · intro hall
    rw [select_eq_lastQual, (lastQual_eq_none v ts).mpr hall]
  · intro i hi hqual
    rcases hq : lastQual v ts with _ | j
    · have hmem : ts.getD i 0 ∈ ts := by
        rw [List.getD_eq_getElem ts 0 hi]
        exact List.getElem_mem hi
      have hlt := (lastQual_eq_none v ts).mp hq _ hmem
      exact absurd hqual (not_le.mpr hlt)
    · obtain ⟨hlen, hjq, hmax⟩ := lastQual_eq_some v ts j hq
      have hsel : select v ts = j + 1 := by rw [select_eq_lastQual, hq]
      have hij : i ≤ j := by
        by_contra hcon
        exact absurd hqual (not_le.mpr (hmax i (by omega) hi))
      exact ⟨by omega, by omega, by simpa [hsel] using hjq, by omega⟩

/-- Python list item assignment `l[i] = v`: a negative index counts from the
end of the list; an index out of the range `[-len, len)` raises `IndexError`
(here `none`). -/
def pyListSet (l : List Int) (i : Int) (v : Int) : Option (List Int) :=
  let n : Int := l.length
  let j : Int := if i < 0 then i + n else i
  if 0 ≤ j ∧ j < n then some (l.set j.toNat v) else none

/-- `_set_threshold`: assign `thresholds[level - 1] = value`; on `IndexError`
only a warning is logged, otherwise `notify_agd_threshold(level, value)` is
emitted.  The boolean records whether the notification was emitted. -/
def set_threshold (thresholds : List Int) (level : Int) (value : Int) :
    List Int × Bool :=
  match pyListSet thresholds (level - 1) value with
  | some ts2 => (ts2, true)
  | none => (thresholds, false)

/-- Claim C4 fails on the code: `set(0, 7)` on the table [5, 10, 20] reaches
Python index `-1`, so it overwrites the LAST entry (yielding [5, 10, 7]) and
emits a notification, although level 0 is outside [1, N]. -/
theorem set_threshold_level_zero_bug :
    set_threshold [5, 10, 20] 0 7 = ([5, 10, 7], true) := by decide

/-- The mutable state of the `AggregatedDerivative` processor: the readings
deque and `_last_play_level`. -/
structure AGDState where
  readings : List Int
  last_play_level : Nat
deriving DecidableEq

/-- `_handle_new_reading`: append the reading to the deque, recompute the
aggregated derivative, always emit `agd_output(raw, agd)` (the middle
component), scan the thresholds, and emit `change_play_level` (the last
component) exactly when the selected level differs from `_last_play_level`,
updating `_last_play_level` in that case. -/
def handle_new_reading (buffer_size : Nat) (thresholds : List Int)
    (st : AGDState) (reading : Int) : AGDState × (Int × Int) × Option Nat :=
  let readings := deque_append buffer_size st.readings reading
  let agd := aggregated_derivative readings
  let play_level := select agd thresholds
  if play_level ≠ st.last_play_level then
    (⟨readings, play_level⟩, (reading, agd), some play_level)
  else
    (⟨readings, st.last_play_level⟩, (reading, agd), none)

/-- The selected play level at each step of a reading sequence, starting from
buffer contents `buf`. -/
def levelSeq (buffer_size : Nat) (thresholds : List Int) :
    List Int → List Int → List Nat
  | _, [] => []
  | buf, r :: rest =>
    let buf2 := deque_append buffer_size buf r
    select (aggregated_derivative buf2) thresholds ::
      levelSeq buffer_size thresholds buf2 rest

/-- The `change_play_level` events (one optional event per reading) produced
by feeding a reading sequence through `_handle_new_reading`. -/
def runEvents (buffer_size : Nat) (thresholds : List Int) :
    AGDState → List Int → List (Option Nat)
  | _, [] => []
  | st, r :: rest =>
    let out := handle_new_reading buffer_size thresholds st r
    out.2.2 :: runEvents buffer_size thresholds out.1 rest

/-- Edge detection on a level sequence: an event fires exactly at positions
where the level differs from the previous one (or from `prev` initially). -/
def edges : Nat → List Nat → List (Option Nat)
  | _, [] => []
  | prev, l :: ls => (if l = prev then none else some l) :: edges l ls

theorem handle_new_reading_eq (buffer_size : Nat) (thresholds : List Int)
    (st : AGDState) (reading : Int) :
    handle_new_reading buffer_size thresholds st reading =
      (⟨deque_append buffer_size st.readings reading,
        select (aggregated_derivative
          (deque_append buffer_size st.readings reading)) thresholds⟩,
       (reading, aggregated_derivative
          (deque_append buffer_size st.readings reading)),
       if select (aggregated_derivative
            (deque_append buffer_size st.readings reading)) thresholds
          = st.last_play_level then none
       else some (select (aggregated_derivative
            (deque_append buffer_size st.readings reading)) thresholds)) := by
  by_cases h : select (aggregated_derivative
      (deque_append buffer_size st.readings reading)) thresholds
      = st.last_play_level
  · simp [handle_new_reading, h]
  · simp [handle_new_reading, h]

/-- Claim C5: for every reading sequence, the `change_play_level` events are
exactly the edge detection of the selected-level sequence against the last
emitted level: an event fires on a reading iff the newly selected level
differs from the previously emitted one, so repeated readings mapping to an
unchanged level emit nothing. -/
theorem play_level_events_edge_triggered (buffer_size : Nat)
    (thresholds : List Int) (st : AGDState) (rs : List Int) :
    runEvents buffer_size thresholds st rs =
      edges st.last_play_level
        (levelSeq buffer_size thresholds st.readings rs) := by
  induction rs generalizing st with
  | nil => rfl
  | cons r rest ih =>
    rw [runEvents, levelSeq, edges, handle_new_reading_eq]
    by_cases h : select (aggregated_derivative
        (deque_append buffer_size st.readings r)) thresholds
        = st.last_play_level
    · simp only [h, if_pos rfl]
      have := ih ⟨deque_append buffer_size st.readings r, st.last_play_level⟩
      simpa [h] using this
    · simp only [if_neg h]
      have := ih ⟨deque_append buffer_size st.readings r,
        select (aggregated_derivative
          (deque_append buffer_size st.readings r)) thresholds⟩
      simpa using this

/-- The `PlayerManager` state the claims concern: `current_level` and the
foreground process handle `current_player` (handles are identified by a
natural number; `none` is Python's `None`). -/
structure PMState where
  current_level : Nat
  current_player : Option Nat
deriving DecidableEq

/-- One primitive step of the `level` coroutine, in the order the source
performs them: the new player's spawn completing, the spawn raising, the old
player's stop completing, and the two attribute assignments. -/
inductive Step where
  | spawnOk (handle : Nat) (layer : Nat)
  | spawnFail (layer : Nat)
  | stopOld (handle : Nat)
  | setLevel (n : Nat)
  | setPlayer (handle : Nat)
deriving DecidableEq

/-- The ordered list of primitive steps `PlayerManager.level(n)` performs.
`fresh` is the handle of the `OMXPlayer` built for this call and
`spawn_succeeds` whether its `spawn` deferred succeeds.  The guard
`if n < self.current_level: return` yields the empty list; a failed spawn
raises out of the generator, so the list stops at `spawnFail` and the stop
and the assignments never run. -/
def levelSteps (st : PMState) (n fresh : Nat) (spawn_succeeds : Bool) :
    List Step :=
  if n < st.current_level then []
  else if spawn_succeeds then
    Step.spawnOk fresh n ::
      ((match st.current_player with
        | some p => [Step.stopOld p]
        | none => []) ++ [Step.setLevel n, Step.setPlayer fresh])
  else [Step.spawnFail n]

/-- Effect of one primitive step on the `PlayerManager` attributes: only the
two assignments mutate them (`stop()` does not touch the attributes). -/
def applyStep (st : PMState) : Step → PMState
  | Step.setLevel n => { st with current_level := n }
  | Step.setPlayer h => { st with current_player := some h }
  | _ => st

/-- The `PlayerManager` state after a `level(n)` call: the fold of the
performed steps over the initial state. -/
def levelRun (st : PMState) (n fresh : Nat) (spawn_succeeds : Bool) : PMState :=
  (levelSteps st n fresh spawn_succeeds).foldl applyStep st

/-- `_player_ended`: unconditionally set `current_level = 0` and
`current_player = None`, whatever level the callback reports. -/
def player_ended (st : PMState) (level : Nat) : PMState :=
  { st with current_level := 0, current_player := none }

/-- Claim C6: a `level(n)` call with `n` below the current level is a no-op:
no step is performed (nothing spawned or stopped) and the state, the
foreground handle included, is unchanged. -/
theorem level_below_current_noop (st : PMState) (n fresh : Nat)
    (spawn_succeeds : Bool) (h : n < st.current_level) :
    levelSteps st n fresh spawn_succeeds = [] ∧
    levelRun st n fresh spawn_succeeds = st := by
  constructor
  · simp [levelSteps, h]
  · simp [levelRun, levelSteps, h]

/-- Witness for claim C6 with current level 2, request 1. -/
theorem level_below_current_noop_witness :
    levelSteps ⟨2, some 7⟩ 1 9 true = [] ∧
    levelRun ⟨2, some 7⟩ 1 9 true = ⟨2, some 7⟩ :=
  level_below_current_noop ⟨2, some 7⟩ 1 9 true (by decide)

/-- Claim C7 fails on the code: with current level 2 and foreground handle 7,
`level(2)` spawns a new player (handle 9) and replaces the foreground handle,
because the source only guards `n < self.current_level`, not `n == n`. -/
theorem level_equal_current_spawns_cex :
    Step.spawnOk 9 2 ∈ levelSteps ⟨2, some 7⟩ 2 9 true ∧
    levelRun ⟨2, some 7⟩ 2 9 true ≠ ⟨2, some 7⟩ := by decide

/-- Claim C7 amended: a successful `level(n)` call spawns a new foreground
layer iff `n ≥ currentLevel`; in particular `n = currentLevel` DOES spawn a
new process at the same level and replaces the foreground handle. -/
theorem level_spawn_iff_not_below (st : PMState) (n fresh : Nat) :
    (∃ h l, Step.spawnOk h l ∈ levelSteps st n fresh true) ↔
      st.current_level ≤ n := by
  constructor
  · rintro ⟨h, l, hmem⟩
    by_contra hcon
    have hlt : n < st.current_level := Nat.lt_of_not_le hcon
    simp [levelSteps, hlt] at hmem
  · intro hle
    have hnlt : ¬ n < st.current_level := Nat.not_lt.mpr hle
    exact ⟨fresh, n, by simp [levelSteps, hnlt]⟩

/-- Claim C8: in a successful transition with a previous foreground layer,
the steps are, in order: the new layer's spawn completes, the previous layer
is stopped, `current_level` is set, the foreground handle is replaced; and
when the spawn does not succeed the previous layer is never stopped at all. -/
theorem level_transition_order (st : PMState) (n fresh p : Nat)
    (hp : st.current_player = some p) (h : st.current_level ≤ n) :
    levelSteps st n fresh true =
      [Step.spawnOk fresh n, Step.stopOld p, Step.setLevel n,
       Step.setPlayer fresh] ∧
    (∀ q, Step.stopOld q ∉ levelSteps st n fresh false) := by
  have hnlt : ¬ n < st.current_level := Nat.not_lt.mpr h
  constructor
  · simp [levelSteps, hnlt, hp]
  · intro q
    simp [levelSteps, hnlt]

/-- Witness for claim C8 from state (level 1, foreground 5), request 2. -/
theorem level_transition_order_witness :
    levelSteps ⟨1, some 5⟩ 2 9 true =
      [Step.spawnOk 9 2, Step.stopOld 5, Step.setLevel 2, Step.setPlayer 9] ∧
    (∀ q, Step.stopOld q ∉ levelSteps ⟨1, some 5⟩ 2 9 false) :=
  level_transition_order ⟨1, some 5⟩ 2 9 5 rfl (by decide)

/-- Claim C9: when the spawn fails during `level(n)`, the state is unchanged
(level and foreground handle keep their prior values), the previous layer is
not stopped, and the failure surfaces (the trace ends at the failed spawn). -/
theorem level_spawn_failure_state_unchanged (st : PMState) (n fresh : Nat)
    (h : st.current_level ≤ n) :
    levelRun st n fresh false = st ∧
    (∀ q, Step.stopOld q ∉ levelSteps st n fresh false) ∧
    levelSteps st n fresh false = [Step.spawnFail n] := by
  have hnlt : ¬ n < st.current_level := Nat.not_lt.mpr h
  refine ⟨?_, ?_, ?_⟩
  · simp [levelRun, levelSteps, hnlt, applyStep]
  · intro q; simp [levelSteps, hnlt]
  · simp [levelSteps, hnlt]

/-- Witness for claim C9 from state (level 1, foreground 5), request 2. -/
theorem level_spawn_failure_state_unchanged_witness :
    levelRun ⟨1, some 5⟩ 2 9 false = ⟨1, some 5⟩ ∧
    (∀ q, Step.stopOld q ∉ levelSteps ⟨1, some 5⟩ 2 9 false) ∧
    levelSteps ⟨1, some 5⟩ 2 9 false = [Step.spawnFail 2] :=
  level_spawn_failure_state_unchanged ⟨1, some 5⟩ 2 9 (by decide)

/-- Claim C10: `_player_ended(level)` resets `current_level` to 0 and clears
the foreground handle for every prior state and every reported level,
including a level different from the current one. -/
theorem player_ended_resets (st : PMState) (level : Nat) :
    (player_ended st level).current_level = 0 ∧
    (player_ended st level).current_player = none :=
  ⟨rfl, rfl⟩

end PyCandle
